import Mathlib

/-!
Verification of the GitHub repo-spec parser and tarball-extraction filters of
`create-effect-app` (`packages/create-effect-app/src/GitHub.ts`).

Strings are modelled as lists of characters (`Str`); the JavaScript string
operations used by the source (`trim`, `startsWith`, `slice`, `lastIndexOf`,
`split`, `join`, `includes`) are given executable models below, and the
source functions (`parseGitHubSpec`, the tar `strip`/`filter` options of
`downloadFromRepo` / `downloadExample` / `downloadTemplate`, and the error
construction of `downloadFromRepo`) are translated on top of them.
-/

namespace CEA

/-- Strings as character lists (the model of JavaScript strings). -/
abbrev Str := List Char

/-- Converts a Lean string literal into the character-list model. -/
def str (s : String) : Str := s.data

/-- The whitespace characters removed by JavaScript `String.prototype.trim`
(the ASCII whitespace characters plus NBSP, BOM and the line/paragraph
separators; other exotic Unicode space characters do not occur in any input
considered here). -/
def isJsWhitespace (c : Char) : Bool :=
  c = ' ' || c = '\t' || c = '\n' || c = '\r' || c = '\x0b' || c = '\x0c' ||
  c = '\u00A0' || c = '\uFEFF' || c = '\u2028' || c = '\u2029'

/-- Model of `s.trimStart()` (used only to build `trim`). -/
def trimLeft (s : Str) : Str := s.dropWhile isJsWhitespace

/-- Model of `s.trimEnd()` (used only to build `trim`). -/
def trimRight (s : Str) : Str := (s.reverse.dropWhile isJsWhitespace).reverse

/-- Model of JavaScript `s.trim()`. -/
def trim (s : Str) : Str := trimRight (trimLeft s)

/-- Auxiliary to `startsWith`, structurally recursive on the pattern so that
it reduces whenever the pattern is concrete. -/
def startsWithAux : Str → Str → Bool
  | [], _ => true
  | _ :: _, [] => false
  | p :: ps, c :: cs => c = p && startsWithAux ps cs

/-- Model of JavaScript `s.startsWith(p)`. -/
def startsWith (s p : Str) : Bool := startsWithAux p s

/-- Model of JavaScript `s.endsWith(p)` (used for the anchored regular
expression test of the source). -/
def endsWith (s p : Str) : Bool := startsWith s.reverse p.reverse

/-- Model of JavaScript `s.includes(p)` (substring containment). -/
def includes : Str → Str → Bool
  | [], needle => startsWith [] needle
  | c :: t, needle => startsWith (c :: t) needle || includes t needle

/-- ASCII lowercasing of one character (what the WHATWG URL parser applies to
the host, and what the `/i` regular-expression flag amounts to on these
hosts). -/
def lowerChar (c : Char) : Char :=
  if 'A' ≤ c && c ≤ 'Z' then Char.ofNat (c.toNat + 32) else c

/-- ASCII lowercasing of a string. -/
def toLowerStr (s : Str) : Str := s.map lowerChar

/-- Model of JavaScript `s.lastIndexOf(c)` for a single character, returning
`none` in place of `-1`. -/
def lastIndexOfChar (c : Char) : Str → Option Nat
  | [] => none
  | x :: xs =>
    match lastIndexOfChar c xs with
    | some i => some (i + 1)
    | none => if x = c then some 0 else none

/-- Model of JavaScript `s.split(c)` for a single-character separator:
`splitChar c s` never returns `[]`, and splitting the empty string yields
`[[]]`, exactly as `"".split("/")` yields `[""]`. -/
def splitChar (c : Char) : Str → List Str
  | [] => [[]]
  | x :: xs =>
    match splitChar c xs with
    | [] => [[x]]
    | h :: t => if x = c then [] :: h :: t else (x :: h) :: t

/-- Model of JavaScript `parts.join(c)` for a single-character separator. -/
def joinChar (c : Char) : List Str → Str
  | [] => []
  | [s] => s
  | s :: r :: t => s ++ c :: joinChar c (r :: t)

/-- Model of the idiom `parts.join("/") || undefined` of the source: the
joined string, or `none` when it is empty. -/
def joinOr (L : List Str) : Option Str :=
  let j := joinChar '/' L
  if j.isEmpty then none else some j

/-! Section: Model of the WHATWG `URL` constructor

`parseGitHubSpec` calls `new URL(s)` on inputs beginning with `http://` or
`https://` and only consumes `url.hostname` and `url.pathname`. The model
below follows the WHATWG URL Standard's documented behavior for such inputs:
the authority extends to the first `/`, `?`, `#` or `\`; userinfo (up to the
last `@` of the authority) and a `:port` suffix are removed from the host,
which is ASCII-lowercased and must be non-empty (an empty host makes the
constructor throw, modelled by `none`); the pathname extends from the end of
the authority to the first `?` or `#` and is `/` when empty. Percent
decoding, dot-segment normalization, backslash normalization and IDNA are
not exercised by any input considered here and are omitted. -/

structure Url where
  hostname : Str
  pathname : Str
deriving Repr, DecidableEq

/-- Model of `new URL(s)` for the inputs the source can pass to it. -/
def parseUrl (s : Str) : Option Url :=
  let restO : Option Str :=
    if startsWith s (str ("https://")) then some (s.drop 8)
    else if startsWith s (str ("http://")) then some (s.drop 7)
    else none
  match restO with
  | none => none
  | some rest =>
    let authority := rest.takeWhile fun c => !(c = '/' || c = '?' || c = '#' || c = '\\')
    let tail := rest.drop authority.length
    let hostport :=
      match lastIndexOfChar '@' authority with
      | some i => authority.drop (i + 1)
      | none => authority
    let host := hostport.takeWhile fun c => c ≠ ':'
    if host.isEmpty then none
    else
      let path := tail.takeWhile fun c => !(c = '?' || c = '#')
      some ⟨toLowerStr host, if path.isEmpty then ['/'] else path⟩

/-! Section: The parser (`parseGitHubSpec`, GitHub.ts lines 105-150) -/

/-- The result of `parseGitHubSpec`: `{ owner, repo, ref, subdir }`, with
`Option` modelling `string | undefined`. -/
structure RepoRef where
  owner : Str
  repo : Str
  ref : Option Str
  subdir : Option Str
deriving Repr, DecidableEq

/-- Model of the host test `/github\.com$/i.test(url.hostname)` (line 116):
an anchored, case-insensitive suffix match. -/
def hostnameIsGitHub (h : Str) : Bool :=
  endsWith (toLowerStr h) (str ("github.com"))

/-- The URL branch of `parseGitHubSpec` (lines 113-135). -/
def parseUrlSpec (s : Str) : Option RepoRef :=
  match parseUrl s with
  | none => none
  | some u =>
    if hostnameIsGitHub u.hostname then
      match (splitChar '/' u.pathname).filter (fun x => !x.isEmpty) with
      | owner :: repo :: rest =>
        match rest with
        | t :: r :: rest2 =>
          if t = str ("tree") then some ⟨owner, repo, some r, joinOr rest2⟩
          else some ⟨owner, repo, none, joinOr rest⟩
        | _ => some ⟨owner, repo, none, joinOr rest⟩
      | _ => none
    else none

/-- The common tail of the shorthand branch (lines 144-149): split the body
on `/` into non-empty segments, require at least two, and take the remaining
segments as the subdirectory. -/
def shorthandFrom (body : Str) (ref : Option Str) : Option RepoRef :=
  match (splitChar '/' body).filter (fun x => !x.isEmpty) with
  | owner :: repo :: rest => some ⟨owner, repo, ref, joinOr rest⟩
  | _ => none

/-- The shorthand branch of `parseGitHubSpec` (lines 137-149): a trailing
`@ref` is detected by the last `@` at a position greater than 0. -/
def parseShorthand (s : Str) : Option RepoRef :=
  match lastIndexOfChar '@' s with
  | some i =>
    if 0 < i then shorthandFrom (s.take i) (some (s.drop (i + 1)))
    else shorthandFrom s none
  | none => shorthandFrom s none

/-- The prefix stripping of `parseGitHubSpec` (lines 108-110): a leading
`gh:` and then a leading `github:` are removed, each at most once. -/
def stripSpecPrefixes (s : Str) : Str :=
  let s1 := if startsWith s (str ("gh:")) then s.drop 3 else s
  if startsWith s1 (str ("github:")) then s1.drop 7 else s1

/-- The branch dispatch of `parseGitHubSpec` after trimming and prefix
stripping (lines 113 and 137). -/
def parseSpecBody (s : Str) : Option RepoRef :=
  if startsWith s (str ("http://")) || startsWith s (str ("https://")) then parseUrlSpec s
  else parseShorthand s

/-- Model of `parseGitHubSpec` (GitHub.ts lines 105-150). -/
def parseGitHubSpec (spec : Str) : Option RepoRef :=
  parseSpecBody (stripSpecPrefixes (trim spec))

/-! Section: The download models (`downloadFromRepo`, `downloadExample`,
`downloadTemplate`) -/

/-- The strip count passed to `Tar.extract` by `downloadFromRepo`
(line 171): `1 + (subdir ? subdir.split("/").filter(Boolean).length : 0)`. -/
def stripCount (subdir : Option Str) : Nat :=
  1 + match subdir with
      | some d => ((splitChar '/' d).filter (fun x => !x.isEmpty)).length
      | none => 0

/-- The number of `/`-separated segments of the subdirectory, `0` when
absent — the quantity the specification describes the strip count by. -/
def subdirSegmentCount (subdir : Option Str) : Nat :=
  match subdir with
  | some d => (splitChar '/' d).length
  | none => 0

/-- The entry filter passed to `Tar.extract` by `downloadFromRepo`
(lines 172-178): drop the first path segment, then compare against the
requested subdirectory. -/
def downloadFilter (subdir : Option Str) (p : Str) : Bool :=
  let parts := splitChar '/' p
  let inner := joinChar '/' (parts.drop 1)
  match subdir with
  | none => true
  | some d => inner == d || startsWith inner (d ++ ['/'])

/-- The path left after removing exactly the first (wrapper) segment of an
archive entry path — the quantity the specification states the filter in
terms of. -/
def wrapperStripped (p : Str) : Str :=
  (p.dropWhile (fun c => c ≠ '/')).drop 1

/-- The entry filter of `downloadExample` (line 65):
`p.includes("examples-main/examples/" + example)`. -/
def downloadExampleFilter (exampleName : Str) (p : Str) : Bool :=
  includes p (str ("examples-main/examples/") ++ exampleName)

/-- The entry filter of `downloadTemplate` (line 94):
`p.includes("examples-main/templates/" + template)`. -/
def downloadTemplateFilter (templateName : Str) (p : Str) : Bool :=
  includes p (str ("examples-main/templates/") ++ templateName)

/-- The commit-ish used by `downloadFromRepo` (line 163): `ref ?? "main"`
(the nullish coalescing keeps an empty-string ref). -/
def commitishOf (r : RepoRef) : Str := r.ref.getD (str ("main"))

/-- The base URL prepended to every request of `codeloadClient`
(lines 40-44). -/
def codeloadBaseUrl : Str := str ("https://codeload.github.com")

/-- The two failure shapes `downloadFromRepo` can produce: the
`ValidationError.invalidValue(HelpDoc.p msg)` constructed in the source
(lines 156-160 and 180-185), and the response error of
`HttpClient.filterStatusOk` (line 43), which carries the failed request —
identified here by its URL. -/
inductive DownloadError where
  | validation (message : Str)
  | response (requestUrl : Str)
deriving Repr, DecidableEq

/-- Model of the failure behavior of `downloadFromRepo` (lines 152-189).
The two boolean parameters stand for the only two external outcomes the
function branches on: whether the archive fetch returned a success status,
and whether the tar-extraction writable completed without error.
`HttpClient.filterStatusOk` (line 43) is modelled from its documented
semantics: a non-2xx response fails the request effect with a response error
carrying the request, before any bytes reach the sink, so the
`ValidationError` of the `NodeSink.fromWritable` error callback
(lines 180-185) arises only from a fault of the writable itself. -/
def downloadFromRepoOutcome (spec : Str) (statusOk sinkOk : Bool) :
    Except DownloadError Unit :=
  match parseGitHubSpec spec with
  | none => .error (.validation (str ("Invalid GitHub repo spec: ") ++ spec))
  | some r =>
    let commitish := commitishOf r
    let url := codeloadBaseUrl ++ str ("/") ++ r.owner ++ str ("/") ++ r.repo ++
      str ("/tar.gz/") ++ commitish
    if !statusOk then .error (.response url)
    else if !sinkOk then
      .error (.validation (str ("Failed to download template from ") ++ r.owner ++
        str ("/") ++ r.repo ++ str ("@") ++ commitish ++
        (match r.subdir with | some d => str ("/") ++ d | none => [])))
    else .ok ()


/-! Section: Characterizations of the string-operation models -/

theorem startsWithAux_iff (p s : Str) : startsWithAux p s = true ↔ ∃ t, s = p ++ t := by
  induction p generalizing s with
  | nil => cases s <;> simp [startsWithAux]
  | cons c cs ih =>
    cases s with
    | nil => simp [startsWithAux]
    | cons x xs =>
      simp only [startsWithAux, Bool.and_eq_true, decide_eq_true_eq, ih, List.cons_append,
        List.cons.injEq]
      constructor
      · rintro ⟨rfl, t, rfl⟩
        exact ⟨t, rfl, rfl⟩
      · rintro ⟨t, rfl, rfl⟩
        exact ⟨rfl, t, rfl⟩

theorem startsWith_iff (s p : Str) : startsWith s p = true ↔ ∃ t, s = p ++ t :=
  startsWithAux_iff p s

theorem endsWith_iff (s p : Str) : endsWith s p = true ↔ ∃ t, s = t ++ p := by
  rw [endsWith, startsWith_iff]
  constructor
  · rintro ⟨t, ht⟩
    refine ⟨t.reverse, ?_⟩
    have := congrArg List.reverse ht
    simpa using this
  · rintro ⟨t, rfl⟩
    exact ⟨t.reverse, by simp⟩

theorem includes_iff (hay needle : Str) :
    includes hay needle = true ↔ ∃ a b, hay = a ++ needle ++ b := by
  induction hay with
  | nil =>
    rw [includes, startsWith_iff]
    constructor
    · rintro ⟨t, ht⟩
      exact ⟨[], t, ht⟩
    · rintro ⟨a, b, h⟩
      rcases List.append_eq_nil.mp h.symm with ⟨h1, h2⟩
      rcases List.append_eq_nil.mp h1 with ⟨rfl, rfl⟩
      exact ⟨b, h2.symm⟩
  | cons c t ih =>
    rw [includes, Bool.or_eq_true, startsWith_iff, ih]
    constructor
    · rintro (⟨u, hu⟩ | ⟨a, b, hab⟩)
      · exact ⟨[], u, by simpa using hu⟩
      · exact ⟨c :: a, b, by simp [hab]⟩
    · rintro ⟨a, b, hab⟩
      cases a with
      | nil => exact Or.inl ⟨b, by simpa using hab⟩
      | cons x a' =>
        right
        refine ⟨a', b, ?_⟩
        have := (List.cons.injEq _ _ _ _).mp (by simpa using hab)
        rw [List.append_assoc]
        exact this.2

theorem splitChar_ne_nil (c : Char) (l : Str) : splitChar c l ≠ [] := by
  cases l with
  | nil => simp [splitChar]
  | cons x xs =>
    rw [splitChar]
    cases splitChar c xs with
    | nil => simp
    | cons h t =>
      by_cases hx : x = c <;> simp [hx]

theorem joinChar_splitChar (c : Char) (l : Str) : joinChar c (splitChar c l) = l := by
  induction l with
  | nil => rfl
  | cons x xs ih =>
    rw [splitChar]
    rcases hE : splitChar c xs with _ | ⟨h, t⟩
    · exact absurd hE (splitChar_ne_nil c xs)
    · rw [hE] at ih
      show joinChar c (if x = c then [] :: h :: t else (x :: h) :: t) = x :: xs
      by_cases hx : x = c
      · rw [if_pos hx]
        show c :: joinChar c (h :: t) = x :: xs
        rw [ih, hx]
      · rw [if_neg hx]
        cases t with
        | nil =>
          show x :: h = x :: xs
          have hh : h = xs := ih
          rw [hh]
        | cons r t' =>
          show (x :: h) ++ c :: joinChar c (r :: t') = x :: xs
          have hh : h ++ c :: joinChar c (r :: t') = xs := ih
          rw [List.cons_append, hh]

theorem not_mem_of_mem_splitChar {c : Char} {l s : Str} (hs : s ∈ splitChar c l) : c ∉ s := by
  induction l generalizing s with
  | nil =>
    rw [splitChar] at hs
    simp only [List.mem_singleton] at hs
    subst hs
    simp
  | cons x xs ih =>
    rw [splitChar] at hs
    rcases hE : splitChar c xs with _ | ⟨h, t⟩
    · exact absurd hE (splitChar_ne_nil c xs)
    · rw [hE] at hs
      have hs' : s ∈ (if x = c then [] :: h :: t else (x :: h) :: t) := hs
      by_cases hx : x = c
      · rw [if_pos hx] at hs'
        rcases List.mem_cons.mp hs' with rfl | hs2
        · simp
        · exact ih (by rw [hE]; exact hs2)
      · rw [if_neg hx] at hs'
        rcases List.mem_cons.mp hs' with rfl | hs2
        · intro hc
          rcases List.mem_cons.mp hc with h2 | hc2
          · exact hx h2.symm
          · exact ih (by rw [hE]; exact List.mem_cons_self h t) hc2
        · exact ih (by rw [hE]; exact List.mem_cons_of_mem h hs2)

theorem splitChar_eq_single {c : Char} {x : Str} (hx : c ∉ x) : splitChar c x = [x] := by
  induction x with
  | nil => rfl
  | cons y x' ih =>
    rw [splitChar, ih (fun h => hx (List.mem_cons_of_mem y h))]
    show (if y = c then [([] : Str), x'] else [y :: x']) = [y :: x']
    rw [if_neg (fun h : y = c => hx (by rw [h]; exact List.mem_cons_self c x'))]

theorem splitChar_append_cons {c : Char} {x : Str} (hx : c ∉ x) (r : Str) :
    splitChar c (x ++ c :: r) = x :: splitChar c r := by
  induction x with
  | nil =>
    rw [List.nil_append, splitChar]
    rcases hE : splitChar c r with _ | ⟨h, t⟩
    · exact absurd hE (splitChar_ne_nil c r)
    · show (if c = c then [] :: h :: t else (c :: h) :: t) = [] :: h :: t
      rw [if_pos rfl]
  | cons y x' ih =>
    rw [List.cons_append, splitChar, ih (fun h => hx (List.mem_cons_of_mem y h))]
    show (if y = c then [] :: x' :: splitChar c r else (y :: x') :: splitChar c r)
        = (y :: x') :: splitChar c r
    rw [if_neg (fun h : y = c => hx (by rw [h]; exact List.mem_cons_self c x'))]

theorem splitChar_joinChar {c : Char} {L : List Str} (hL : L ≠ [])
    (hmem : ∀ x ∈ L, c ∉ x) : splitChar c (joinChar c L) = L := by
  induction L with
  | nil => exact absurd rfl hL
  | cons h t ih =>
    cases t with
    | nil => exact splitChar_eq_single (hmem h (List.mem_cons_self h []))
    | cons r t' =>
      show splitChar c (h ++ c :: joinChar c (r :: t')) = h :: r :: t'
      rw [splitChar_append_cons (hmem h (List.mem_cons_self h (r :: t')))]
      rw [ih (by simp) (fun x hx => hmem x (List.mem_cons_of_mem h hx))]

theorem joinChar_drop_one (c : Char) (l : Str) :
    joinChar c ((splitChar c l).drop 1) = (l.dropWhile (fun ch => ch ≠ c)).drop 1 := by
  induction l with
  | nil => rfl
  | cons x xs ih =>
    rw [splitChar]
    rcases hE : splitChar c xs with _ | ⟨h, t⟩
    · exact absurd hE (splitChar_ne_nil c xs)
    · show joinChar c (List.drop 1 (if x = c then [] :: h :: t else (x :: h) :: t)) = _
      by_cases hx : x = c
      · rw [if_pos hx]
        show joinChar c (h :: t) = _
        rw [List.dropWhile_cons, if_neg (by simp [hx])]
        show joinChar c (h :: t) = xs
        rw [← hE, joinChar_splitChar]
      · rw [if_neg hx]
        show joinChar c t = _
        rw [List.dropWhile_cons, if_pos (by simp [hx])]
        rw [← ih, hE]
        rfl

theorem lastIndexOfChar_eq_none {c : Char} {l : Str} (h : c ∉ l) : lastIndexOfChar c l = none := by
  induction l with
  | nil => rfl
  | cons x xs ih =>
    rw [lastIndexOfChar, ih (fun hx => h (List.mem_cons_of_mem x hx))]
    rw [if_neg (fun hx : x = c => h (by rw [hx]; exact List.mem_cons_self c xs))]

theorem lastIndexOfChar_append {c : Char} (t : Str) {u : Str} (hu : c ∉ u) :
    lastIndexOfChar c (t ++ c :: u) = some t.length := by
  induction t with
  | nil =>
    rw [List.nil_append, lastIndexOfChar, lastIndexOfChar_eq_none hu, if_pos rfl]
    rfl
  | cons x t' ih =>
    rw [List.cons_append, lastIndexOfChar, ih]
    rfl

/-! Section: Lemmas about the trimming model -/

theorem dropWhile_append_cons {p : Char → Bool} {x : Char} (hx : p x = false) (u v : Str) :
    (u ++ x :: v).dropWhile p = u.dropWhile p ++ x :: v := by
  induction u with
  | nil => simp [List.dropWhile_cons, hx]
  | cons a u' ih =>
    cases ha : p a <;>
      simp [List.cons_append, List.dropWhile_cons, ha, ih]

theorem trimLeft_cons_of {x : Char} (hx : isJsWhitespace x = false) (l : Str) :
    trimLeft (x :: l) = x :: l := by
  simp [trimLeft, List.dropWhile_cons, hx]

theorem trimRight_append {a b : Str} {x : Char} (hx : isJsWhitespace x = false) :
    trimRight ((a ++ [x]) ++ b) = (a ++ [x]) ++ trimRight b := by
  unfold trimRight
  rw [List.reverse_append, List.reverse_append]
  rw [show ([x].reverse ++ a.reverse : Str) = x :: a.reverse by simp]
  rw [dropWhile_append_cons hx]
  rw [List.reverse_append]
  simp

theorem trim_prefixed {a : Str} {x y : Char} {b : Str}
    (hx : isJsWhitespace x = false) (hy : isJsWhitespace y = false) :
    trim ((x :: a ++ [y]) ++ b) = (x :: a ++ [y]) ++ trimRight b := by
  rw [trim]
  rw [show ((x :: a ++ [y]) ++ b : Str) = x :: (a ++ [y] ++ b) by simp]
  rw [trimLeft_cons_of hx]
  rw [show (x :: (a ++ [y] ++ b) : Str) = ((x :: a) ++ [y]) ++ b by simp]
  exact trimRight_append hy

theorem trimRight_append_exists (s : Str) : ∃ t, s = trimRight s ++ t := by
  refine ⟨(s.reverse.takeWhile isJsWhitespace).reverse, ?_⟩
  rw [trimRight]
  conv_lhs =>
    rw [← List.reverse_reverse s,
      ← List.takeWhile_append_dropWhile isJsWhitespace s.reverse]
  rw [List.reverse_append]

theorem startsWith_trimRight {s p : Str} (h : startsWith s p = false) :
    startsWith (trimRight s) p = false := by
  by_contra hc
  rw [Bool.not_eq_false] at hc
  obtain ⟨t0, h0⟩ := (startsWith_iff _ _).mp hc
  obtain ⟨t1, h1⟩ := trimRight_append_exists s
  have : startsWith s p = true := by
    refine (startsWith_iff _ _).mpr ⟨t0 ++ t1, ?_⟩
    rw [h1, h0, List.append_assoc]
  rw [this] at h
  exact Bool.noConfusion h

/-! Section: Lemmas about the prefix stripping -/

theorem stripSpecPrefixes_gh {X : Str} (h : startsWith X (str ("github:")) = false) :
    stripSpecPrefixes (str ("gh:") ++ X) = X := by
  have e1 : startsWith (str ("gh:") ++ X) (str ("gh:")) = true := rfl
  have e2 : (str ("gh:") ++ X).drop 3 = X := rfl
  simp [stripSpecPrefixes, e1, e2, h]

theorem stripSpecPrefixes_github (X : Str) :
    stripSpecPrefixes (str ("github:") ++ X) = X := by
  have e1 : startsWith (str ("github:") ++ X) (str ("gh:")) = false := rfl
  have e2 : startsWith (str ("github:") ++ X) (str ("github:")) = true := rfl
  have e3 : (str ("github:") ++ X).drop 7 = X := rfl
  simp [stripSpecPrefixes, e1, e2, e3]

theorem stripSpecPrefixes_id {X : Str} (h1 : startsWith X (str ("gh:")) = false)
    (h2 : startsWith X (str ("github:")) = false) :
    stripSpecPrefixes X = X := by
  simp [stripSpecPrefixes, h1, h2]

/-! Section: Structure of successful parse results -/

/-- Elements of the non-empty-segment split are non-empty and contain no
separator. -/
theorem seg_mem_prop {body x : Str}
    (hx : x ∈ (splitChar '/' body).filter (fun s => !s.isEmpty)) :
    x ≠ [] ∧ '/' ∉ x := by
  have h1 := List.mem_filter.mp hx
  constructor
  · intro hnil
    rw [hnil] at h1
    simpa using h1.2
  · exact not_mem_of_mem_splitChar h1.1

/-- The shape of a subdirectory produced by `joinOr`: absent, or the
`/`-join of a non-empty list of non-empty separator-free segments. -/
theorem joinOr_shape {L : List Str} (hmem : ∀ x ∈ L, x ≠ [] ∧ '/' ∉ x) :
    joinOr L = none ∨
      ∃ M, M ≠ [] ∧ (∀ x ∈ M, x ≠ [] ∧ '/' ∉ x) ∧ joinOr L = some (joinChar '/' M) := by
  rw [joinOr]
  by_cases h : (joinChar '/' L).isEmpty = true
  · left
    simp [h]
  · right
    refine ⟨L, ?_, hmem, by simp [h]⟩
    rintro rfl
    exact h rfl

/-- The shape of any successful result of `shorthandFrom`. -/
theorem shorthandFrom_shape {body : Str} {ref : Option Str} {r : RepoRef}
    (h : shorthandFrom body ref = some r) :
    r.ref = ref ∧ r.owner ≠ [] ∧ r.repo ≠ [] ∧
      (r.subdir = none ∨
        ∃ M, M ≠ [] ∧ (∀ x ∈ M, x ≠ [] ∧ '/' ∉ x) ∧ r.subdir = some (joinChar '/' M)) := by
  rw [shorthandFrom] at h
  rcases hE : (splitChar '/' body).filter (fun s => !s.isEmpty) with _ | ⟨owner, _ | ⟨repo, rest⟩⟩
  · rw [hE] at h
    exact absurd h (by simp)
  · rw [hE] at h
    exact absurd h (by simp)
  · rw [hE] at h
    have hr : r = ⟨owner, repo, ref, joinOr rest⟩ := (Option.some_inj.mp h).symm
    subst hr
    refine ⟨rfl, ?_, ?_, ?_⟩
    · exact (seg_mem_prop (by rw [hE]; exact List.mem_cons_self _ _)).1
    · exact (seg_mem_prop (by rw [hE]; exact List.mem_cons_of_mem _ (List.mem_cons_self _ _))).1
    · exact joinOr_shape fun x hx =>
        seg_mem_prop (by
          rw [hE]
          exact List.mem_cons_of_mem _ (List.mem_cons_of_mem _ hx))

/-- The shape of any successful result of the URL branch. -/
theorem parseUrlSpec_shape {s : Str} {r : RepoRef} (h : parseUrlSpec s = some r) :
    r.owner ≠ [] ∧ r.repo ≠ [] ∧
      (r.subdir = none ∨
        ∃ M, M ≠ [] ∧ (∀ x ∈ M, x ≠ [] ∧ '/' ∉ x) ∧ r.subdir = some (joinChar '/' M)) := by
  rw [parseUrlSpec] at h
  rcases hU : parseUrl s with _ | u
  · rw [hU] at h
    exact absurd h (by simp)
  · simp only [hU] at h
    by_cases hh : hostnameIsGitHub u.hostname = true
    · rw [if_pos hh] at h
      rcases hE : (splitChar '/' u.pathname).filter (fun s => !s.isEmpty) with
        _ | ⟨owner, _ | ⟨repo, rest⟩⟩
      · rw [hE] at h
        exact absurd h (by simp)
      · rw [hE] at h
        exact absurd h (by simp)
      · rw [hE] at h
        have howner : owner ≠ [] :=
          (seg_mem_prop (by rw [hE]; exact List.mem_cons_self _ _)).1
        have hrepo : repo ≠ [] :=
          (seg_mem_prop (by
            rw [hE]; exact List.mem_cons_of_mem _ (List.mem_cons_self _ _))).1
        have hrest : ∀ x ∈ rest, x ≠ [] ∧ '/' ∉ x := fun x hx =>
          seg_mem_prop (by
            rw [hE]
            exact List.mem_cons_of_mem _ (List.mem_cons_of_mem _ hx))
        rcases rest with _ | ⟨t, _ | ⟨r2, rest2⟩⟩
        · have hr : r = ⟨owner, repo, none, joinOr []⟩ := (Option.some_inj.mp h).symm
          subst hr
          exact ⟨howner, hrepo, joinOr_shape hrest⟩
        · have hr : r = ⟨owner, repo, none, joinOr [t]⟩ := (Option.some_inj.mp h).symm
          subst hr
          exact ⟨howner, hrepo, joinOr_shape hrest⟩
        · have h' : (if t = str ("tree")
                then some (⟨owner, repo, some r2, joinOr rest2⟩ : RepoRef)
                else some ⟨owner, repo, none, joinOr (t :: r2 :: rest2)⟩) = some r := h
          by_cases ht : t = str ("tree")
          · rw [if_pos ht] at h'
            have hr : r = ⟨owner, repo, some r2, joinOr rest2⟩ := (Option.some_inj.mp h').symm
            subst hr
            refine ⟨howner, hrepo, joinOr_shape fun x hx => hrest x ?_⟩
            exact List.mem_cons_of_mem _ (List.mem_cons_of_mem _ hx)
          · rw [if_neg ht] at h'
            have hr : r = ⟨owner, repo, none, joinOr (t :: r2 :: rest2)⟩ :=
              (Option.some_inj.mp h').symm
            subst hr
            exact ⟨howner, hrepo, joinOr_shape hrest⟩
    · rw [if_neg hh] at h
      exact absurd h (by simp)

/-- The shape of any successful result of `parseGitHubSpec`: the ref equals
whatever the active branch extracted, the owner and repo are non-empty, and
the subdirectory is absent or a join of non-empty separator-free segments. -/
theorem parseGitHubSpec_shape {s : Str} {r : RepoRef} (h : parseGitHubSpec s = some r) :
    r.owner ≠ [] ∧ r.repo ≠ [] ∧
      (r.subdir = none ∨
        ∃ M, M ≠ [] ∧ (∀ x ∈ M, x ≠ [] ∧ '/' ∉ x) ∧ r.subdir = some (joinChar '/' M)) := by
  rw [parseGitHubSpec, parseSpecBody] at h
  by_cases hb : (startsWith (stripSpecPrefixes (trim s)) (str ("http://")) ||
      startsWith (stripSpecPrefixes (trim s)) (str ("https://"))) = true
  · rw [if_pos hb] at h
    exact parseUrlSpec_shape h
  · rw [if_neg hb] at h
    rw [parseShorthand] at h
    rcases hL : lastIndexOfChar '@' (stripSpecPrefixes (trim s)) with _ | i
    · rw [hL] at h
      exact (shorthandFrom_shape h).2
    · simp only [hL] at h
      by_cases hi : 0 < i
      · rw [if_pos hi] at h
        exact (shorthandFrom_shape h).2
      · rw [if_neg hi] at h
        exact (shorthandFrom_shape h).2

/-- Non-empty lists fail the `isEmpty` test used by `filter(Boolean)`. -/
theorem not_isEmpty_of_ne {a : Str} (h : a ≠ []) : (!a.isEmpty) = true := by
  cases a with
  | nil => exact absurd rfl h
  | cons x t => rfl

/-! Section: The claims -/

/-- C1 (amended): a URL-form input (beginning with `http://` or `https://`
after trimming and prefix stripping) parses successfully only if the
hostname produced by the URL parser ends, case-insensitively, with the
string `github.com` — a suffix match with no dot boundary, not an equality
test; and the specification's host-mismatch example
`https://gitlab.com/owner/repo` fails to parse. -/
theorem claim1_url_host_suffix :
    (∀ s u r,
        parseGitHubSpec s = some r →
        (startsWith (stripSpecPrefixes (trim s)) (str ("http://")) ||
          startsWith (stripSpecPrefixes (trim s)) (str ("https://"))) = true →
        parseUrl (stripSpecPrefixes (trim s)) = some u →
        ∃ t, toLowerStr u.hostname = t ++ str ("github.com"))
    ∧ parseGitHubSpec (str ("https://gitlab.com/owner/repo")) = none := by
  refine ⟨?_, rfl⟩
  intro s u r h hb hu
  rw [parseGitHubSpec, parseSpecBody, if_pos hb, parseUrlSpec] at h
  simp only [hu] at h
  by_cases hh : hostnameIsGitHub u.hostname = true
  · exact (endsWith_iff (toLowerStr u.hostname) (str ("github.com"))).mp hh
  · rw [if_neg hh] at h
    exact absurd h (by simp)

/-- C1 counterexample: `https://evilgithub.com/owner/repo` has hostname
`evilgithub.com`, which is not equal to `github.com`, yet the parse
succeeds, contradicting the claim that only a host equal to `github.com`
(case-insensitively) is accepted. -/
theorem claim1_counterexample :
    parseGitHubSpec (str ("https://evilgithub.com/owner/repo"))
        = some ⟨str ("owner"), str ("repo"), none, none⟩
    ∧ (parseUrl (str ("https://evilgithub.com/owner/repo"))).map Url.hostname
        = some (str ("evilgithub.com"))
    ∧ str ("evilgithub.com") ≠ str ("github.com") :=
  ⟨rfl, rfl, by decide⟩

/-- C1 witness: the amended theorem applied to
`https://github.com/owner/repo`. -/
theorem claim1_witness :
    ∃ t, toLowerStr (str ("github.com")) = t ++ str ("github.com") :=
  claim1_url_host_suffix.1 (str ("https://github.com/owner/repo"))
    ⟨str ("github.com"), str ("/owner/repo")⟩
    ⟨str ("owner"), str ("repo"), none, none⟩ rfl rfl rfl

/-- C2: with a requested subdirectory `S`, the tar entry filter of
`downloadFromRepo` accepts a path exactly when the path minus its first
(wrapper) segment equals `S` or begins with `S` followed by `/`; with no
subdirectory every entry passes; and with `S = packages/cli` the entry whose
wrapper-stripped path is `packages/cli-extra/file.ts` is rejected. -/
theorem claim2_download_filter :
    (∀ S p, downloadFilter (some S) p = true ↔
        (wrapperStripped p = S ∨ ∃ t, wrapperStripped p = S ++ '/' :: t))
    ∧ (∀ p, downloadFilter none p = true)
    ∧ downloadFilter (some (str ("packages/cli")))
        (str ("wrapper/packages/cli-extra/file.ts")) = false := by
  refine ⟨?_, fun p => rfl, rfl⟩
  intro S p
  have hw : joinChar '/' ((splitChar '/' p).drop 1) = wrapperStripped p := by
    rw [joinChar_drop_one, wrapperStripped]
  show (joinChar '/' ((splitChar '/' p).drop 1) == S ||
      startsWith (joinChar '/' ((splitChar '/' p).drop 1)) (S ++ ['/'])) = true ↔ _
  rw [hw, Bool.or_eq_true, beq_iff_eq, startsWith_iff]
  constructor
  · rintro (h | ⟨t, ht⟩)
    · exact Or.inl h
    · refine Or.inr ⟨t, ?_⟩
      rw [ht, List.append_assoc]
      rfl
  · rintro (h | ⟨t, ht⟩)
    · exact Or.inl h
    · refine Or.inr ⟨t, ?_⟩
      rw [ht, List.append_assoc]
      rfl

/-- C3: for every successful parse, the strip count handed to the tar
extractor by `downloadFromRepo` equals one plus the number of `/`-separated
segments of the subdirectory (zero when the subdirectory is absent). -/
theorem claim3_strip_count :
    ∀ s r, parseGitHubSpec s = some r →
      stripCount r.subdir = 1 + subdirSegmentCount r.subdir := by
  intro s r h
  obtain ⟨-, -, hsub⟩ := parseGitHubSpec_shape h
  rcases hsub with h0 | ⟨M, hM, hmem, hsome⟩
  · rw [h0]
    rfl
  · rw [hsome]
    show 1 + ((splitChar '/' (joinChar '/' M)).filter (fun x => !x.isEmpty)).length
        = 1 + (splitChar '/' (joinChar '/' M)).length
    rw [splitChar_joinChar hM (fun x hx => (hmem x hx).2)]
    rw [List.filter_eq_self.mpr (fun a ha => not_isEmpty_of_ne (hmem a ha).1)]

/-- C3 witness: the theorem applied to `owner/repo/a/b`, whose subdirectory
`a/b` has two segments. -/
theorem claim3_witness :
    stripCount (RepoRef.subdir ⟨str ("owner"), str ("repo"), none, some (str ("a/b"))⟩)
      = 1 + subdirSegmentCount
          (RepoRef.subdir ⟨str ("owner"), str ("repo"), none, some (str ("a/b"))⟩) :=
  claim3_strip_count (str ("owner/repo/a/b"))
    ⟨str ("owner"), str ("repo"), none, some (str ("a/b"))⟩ rfl

/-- C4: in the shorthand branch, a trailing `@ref` is detected by the last
`@` at a position greater than zero and stripped before `/`-splitting; a
last `@` at position zero extracts no ref; and the concrete inputs
`owner/repo`, `owner/repo@ref`, `owner/repo/a/b@ref` and `@weird/owner/repo`
parse as the claim states. -/
theorem claim4_shorthand :
    (∀ t u, t ≠ [] → '@' ∉ u →
        parseShorthand (t ++ '@' :: u) = shorthandFrom t (some u))
    ∧ (∀ t, (∀ i, lastIndexOfChar '@' t = some i → i = 0) →
        parseShorthand t = shorthandFrom t none)
    ∧ parseGitHubSpec (str ("owner/repo"))
        = some ⟨str ("owner"), str ("repo"), none, none⟩
    ∧ parseGitHubSpec (str ("owner/repo@ref"))
        = some ⟨str ("owner"), str ("repo"), some (str ("ref")), none⟩
    ∧ parseGitHubSpec (str ("owner/repo/a/b@ref"))
        = some ⟨str ("owner"), str ("repo"), some (str ("ref")), some (str ("a/b"))⟩
    ∧ parseGitHubSpec (str ("@weird/owner/repo"))
        = some ⟨str ("@weird"), str ("owner"), none, some (str ("repo"))⟩ := by
  refine ⟨?_, ?_, rfl, rfl, rfl, rfl⟩
  · intro t u ht hu
    rw [parseShorthand]
    simp only [lastIndexOfChar_append t hu]
    rw [if_pos (List.length_pos.mpr ht)]
    have htake : (t ++ '@' :: u).take t.length = t := List.take_left t ('@' :: u)
    have hdrop : (t ++ '@' :: u).drop (t.length + 1) = u := by
      rw [show (t ++ '@' :: u : Str) = (t ++ ['@']) ++ u by simp]
      exact List.drop_left' (by simp)
    rw [htake, hdrop]
  · intro t hyp
    rw [parseShorthand]
    rcases hL : lastIndexOfChar '@' t with _ | i
    · rfl
    · have h0 : i = 0 := hyp i hL
      subst h0
      show (if 0 < 0 then shorthandFrom (t.take 0) (some (t.drop 1))
          else shorthandFrom t none) = shorthandFrom t none
      rw [if_neg (lt_irrefl 0)]

/-- C4 witness: the ref-stripping part applied to body `owner/repo` and ref
`ref`. -/
theorem claim4_witness :
    parseShorthand (str ("owner/repo") ++ '@' :: str ("ref"))
      = shorthandFrom (str ("owner/repo")) (some (str ("ref"))) :=
  claim4_shorthand.1 (str ("owner/repo")) (str ("ref")) (by decide) (by decide)

/-- C5: for a URL-form input on an accepted host whose path splits into at
least four non-empty segments with the third literally `tree`, the parse
returns the first segment as owner, the second as repo, the fourth as ref,
and the remaining segments joined by `/` as the subdirectory (absent if
none); otherwise all segments after the second are joined as the
subdirectory and no ref is extracted; and
`https://github.com/owner/repo/tree/main/sub/dir` parses as stated. -/
theorem claim5_url_tree :
    (∀ s u owner repo rf rest2,
        (startsWith (stripSpecPrefixes (trim s)) (str ("http://")) ||
          startsWith (stripSpecPrefixes (trim s)) (str ("https://"))) = true →
        parseUrl (stripSpecPrefixes (trim s)) = some u →
        hostnameIsGitHub u.hostname = true →
        (splitChar '/' u.pathname).filter (fun x => !x.isEmpty)
          = owner :: repo :: str ("tree") :: rf :: rest2 →
        parseGitHubSpec s = some ⟨owner, repo, some rf, joinOr rest2⟩)
    ∧ (∀ s u owner repo rest,
        (startsWith (stripSpecPrefixes (trim s)) (str ("http://")) ||
          startsWith (stripSpecPrefixes (trim s)) (str ("https://"))) = true →
        parseUrl (stripSpecPrefixes (trim s)) = some u →
        hostnameIsGitHub u.hostname = true →
        (splitChar '/' u.pathname).filter (fun x => !x.isEmpty) = owner :: repo :: rest →
        (∀ rf rest2, rest ≠ str ("tree") :: rf :: rest2) →
        parseGitHubSpec s = some ⟨owner, repo, none, joinOr rest⟩)
    ∧ parseGitHubSpec (str ("https://github.com/owner/repo/tree/main/sub/dir"))
        = some ⟨str ("owner"), str ("repo"), some (str ("main")), some (str ("sub/dir"))⟩ := by
  refine ⟨?_, ?_, rfl⟩
  · intro s u owner repo rf rest2 hb hu hh hsplit
    rw [parseGitHubSpec, parseSpecBody, if_pos hb, parseUrlSpec]
    simp only [hu]
    rw [if_pos hh]
    simp only [hsplit]
    rw [if_pos trivial]
  · intro s u owner repo rest hb hu hh hsplit hne
    rw [parseGitHubSpec, parseSpecBody, if_pos hb, parseUrlSpec]
    simp only [hu]
    rw [if_pos hh]
    simp only [hsplit]
    rcases rest with _ | ⟨t, _ | ⟨r2, rest2⟩⟩
    · rfl
    · rfl
    · show (if t = str ("tree")
          then some (⟨owner, repo, some r2, joinOr rest2⟩ : RepoRef)
          else some ⟨owner, repo, none, joinOr (t :: r2 :: rest2)⟩)
        = some ⟨owner, repo, none, joinOr (t :: r2 :: rest2)⟩
      rw [if_neg (fun h : t = str ("tree") => hne r2 rest2 (by rw [h]))]

/-- C5 witness: the tree branch applied to
`https://github.com/owner/repo/tree/main/sub/dir`. -/
theorem claim5_witness :
    parseGitHubSpec (str ("https://github.com/owner/repo/tree/main/sub/dir"))
      = some ⟨str ("owner"), str ("repo"), some (str ("main")),
          joinOr [str ("sub"), str ("dir")]⟩ :=
  claim5_url_tree.1 (str ("https://github.com/owner/repo/tree/main/sub/dir"))
    ⟨str ("github.com"), str ("/owner/repo/tree/main/sub/dir")⟩
    (str ("owner")) (str ("repo")) (str ("main")) [str ("sub"), str ("dir")]
    rfl rfl rfl rfl

/-- C6: owner and repo are non-empty after every successful parse; fewer
than two non-empty path segments make either branch return `none` rather
than partial data; and `onlyonesegment` fails to parse both as shorthand and
inside a URL path. -/
theorem claim6_owner_repo :
    (∀ s r, parseGitHubSpec s = some r → r.owner ≠ [] ∧ r.repo ≠ [])
    ∧ (∀ body ref, ((splitChar '/' body).filter (fun x => !x.isEmpty)).length < 2 →
        shorthandFrom body ref = none)
    ∧ (∀ t u, parseUrl t = some u →
        ((splitChar '/' u.pathname).filter (fun x => !x.isEmpty)).length < 2 →
        parseUrlSpec t = none)
    ∧ parseGitHubSpec (str ("onlyonesegment")) = none
    ∧ parseGitHubSpec (str ("https://github.com/onlyonesegment")) = none := by
  refine ⟨?_, ?_, ?_, rfl, rfl⟩
  · intro s r h
    exact ⟨(parseGitHubSpec_shape h).1, (parseGitHubSpec_shape h).2.1⟩
  · intro body ref hlen
    rw [shorthandFrom]
    rcases hE : (splitChar '/' body).filter (fun x => !x.isEmpty) with _ | ⟨a, _ | ⟨b, rest⟩⟩
    · rw [hE]
    · rw [hE]
    · rw [hE] at hlen
      exact absurd hlen (by simp)
  · intro t u hu hlen
    rw [parseUrlSpec]
    simp only [hu]
    by_cases hh : hostnameIsGitHub u.hostname = true
    · rw [if_pos hh]
      rcases hE : (splitChar '/' u.pathname).filter (fun x => !x.isEmpty) with
        _ | ⟨a, _ | ⟨b, rest⟩⟩
      · rw [hE]
      · rw [hE]
      · rw [hE] at hlen
        exact absurd hlen (by simp)
    · rw [if_neg hh]

/-- C6 witness: the invariant applied to the parse of `a/b`. -/
theorem claim6_witness :
    RepoRef.owner ⟨str ("a"), str ("b"), none, none⟩ ≠ []
      ∧ RepoRef.repo ⟨str ("a"), str ("b"), none, none⟩ ≠ [] :=
  claim6_owner_repo.1 (str ("a/b")) ⟨str ("a"), str ("b"), none, none⟩ rfl

/-- C7 (amended): for every string with no leading whitespace that does not
itself start with `gh:` or `github:`, prepending `gh:` or `github:` leaves
the parse result unchanged; in particular `gh:owner/repo` and
`github:owner/repo` parse exactly like `owner/repo`. (Without these
side conditions the claim fails: the prefix is stripped only once, and
trimming applies before stripping.) -/
theorem claim7_prefix :
    (∀ s, trimLeft s = s →
        startsWith s (str ("gh:")) = false →
        startsWith s (str ("github:")) = false →
        parseGitHubSpec (str ("gh:") ++ s) = parseGitHubSpec s ∧
          parseGitHubSpec (str ("github:") ++ s) = parseGitHubSpec s)
    ∧ parseGitHubSpec (str ("gh:owner/repo")) = parseGitHubSpec (str ("owner/repo"))
    ∧ parseGitHubSpec (str ("github:owner/repo")) = parseGitHubSpec (str ("owner/repo")) := by
  refine ⟨?_, rfl, rfl⟩
  intro s h0 h1 h2
  have hR1 : startsWith (trimRight s) (str ("gh:")) = false := startsWith_trimRight h1
  have hR2 : startsWith (trimRight s) (str ("github:")) = false := startsWith_trimRight h2
  have htrim : trim s = trimRight s := by rw [trim, h0]
  have hrhs : stripSpecPrefixes (trim s) = trimRight s := by
    rw [htrim, stripSpecPrefixes_id hR1 hR2]
  constructor
  · have hgh : trim (str ("gh:") ++ s) = str ("gh:") ++ trimRight s := by
      have := @trim_prefixed ['h'] 'g' ':' s rfl rfl
      simpa using this
    rw [parseGitHubSpec, parseGitHubSpec, hgh, hrhs, stripSpecPrefixes_gh hR2]
  · have hgithub : trim (str ("github:") ++ s) = str ("github:") ++ trimRight s := by
      have := @trim_prefixed ['i', 't', 'h', 'u', 'b'] 'g' ':' s rfl rfl
      simpa using this
    rw [parseGitHubSpec, parseGitHubSpec, hgithub, hrhs, stripSpecPrefixes_github]

/-- C7 counterexample: for `s = gh:owner/repo` (which itself starts with
`gh:`), parsing `gh:` ++ s does not agree with parsing s, because the prefix
is stripped only once. -/
theorem claim7_counterexample :
    str ("gh:gh:owner/repo") = str ("gh:") ++ str ("gh:owner/repo")
    ∧ parseGitHubSpec (str ("gh:gh:owner/repo"))
        = some ⟨str ("gh:owner"), str ("repo"), none, none⟩
    ∧ parseGitHubSpec (str ("gh:owner/repo"))
        = some ⟨str ("owner"), str ("repo"), none, none⟩
    ∧ parseGitHubSpec (str ("gh:") ++ str ("gh:owner/repo"))
        ≠ parseGitHubSpec (str ("gh:owner/repo")) :=
  ⟨rfl, rfl, rfl, by decide⟩

/-- C7 witness: the amended theorem applied to `owner/repo`. -/
theorem claim7_witness :
    parseGitHubSpec (str ("gh:") ++ str ("owner/repo"))
        = parseGitHubSpec (str ("owner/repo"))
    ∧ parseGitHubSpec (str ("github:") ++ str ("owner/repo"))
        = parseGitHubSpec (str ("owner/repo")) :=
  claim7_prefix.1 (str ("owner/repo")) rfl rfl rfl

/-- C8 (amended): a parse failure makes `downloadFromRepo` fail with the one
`ValidationError` kind, whose message carries the original input; a
non-success fetch status fails the request through the status filter, whose
error identifies the attempted request URL — naming the owner, the repo and
the commit-ish, but not the subdirectory; the descriptive message that also
names the subdirectory is produced for a fault of the extraction sink. -/
theorem claim8_error_reporting :
    (∀ spec b c, parseGitHubSpec spec = none →
        downloadFromRepoOutcome spec b c
          = .error (.validation (str ("Invalid GitHub repo spec: ") ++ spec)))
    ∧ (∀ spec r, parseGitHubSpec spec = some r →
        ∃ url, downloadFromRepoOutcome spec false true = .error (.response url)
          ∧ (∃ a b, url = a ++ r.owner ++ b)
          ∧ (∃ a b, url = a ++ r.repo ++ b)
          ∧ (∃ a b, url = a ++ commitishOf r ++ b))
    ∧ (∀ spec r, parseGitHubSpec spec = some r →
        ∃ msg, downloadFromRepoOutcome spec true false = .error (.validation msg)
          ∧ (∃ a b, msg = a ++ r.owner ++ b)
          ∧ (∃ a b, msg = a ++ r.repo ++ b)
          ∧ (∃ a b, msg = a ++ commitishOf r ++ b)
          ∧ ∀ d, r.subdir = some d → ∃ a b, msg = a ++ d ++ b) := by
  refine ⟨?_, ?_, ?_⟩
  · intro spec b c h
    rw [downloadFromRepoOutcome]
    simp only [h]
  · intro spec r h
    refine ⟨codeloadBaseUrl ++ str ("/") ++ r.owner ++ str ("/") ++ r.repo ++
        str ("/tar.gz/") ++ commitishOf r, ?_, ?_, ?_, ?_⟩
    · rw [downloadFromRepoOutcome]
      simp only [h]
      rfl
    · exact ⟨codeloadBaseUrl ++ str ("/"),
        str ("/") ++ r.repo ++ str ("/tar.gz/") ++ commitishOf r,
        by simp [List.append_assoc]⟩
    · exact ⟨codeloadBaseUrl ++ str ("/") ++ r.owner ++ str ("/"),
        str ("/tar.gz/") ++ commitishOf r, by simp [List.append_assoc]⟩
    · exact ⟨codeloadBaseUrl ++ str ("/") ++ r.owner ++ str ("/") ++ r.repo ++
        str ("/tar.gz/"), [], by simp [List.append_assoc]⟩
  · intro spec r h
    refine ⟨str ("Failed to download template from ") ++ r.owner ++ str ("/") ++
        r.repo ++ str ("@") ++ commitishOf r ++
        (match r.subdir with | some d => str ("/") ++ d | none => []), ?_, ?_, ?_, ?_, ?_⟩
    · rw [downloadFromRepoOutcome]
      simp only [h]
      rfl
    · exact ⟨str ("Failed to download template from "),
        str ("/") ++ r.repo ++ str ("@") ++ commitishOf r ++
          (match r.subdir with | some d => str ("/") ++ d | none => []),
        by simp [List.append_assoc]⟩
    · exact ⟨str ("Failed to download template from ") ++ r.owner ++ str ("/"),
        str ("@") ++ commitishOf r ++
          (match r.subdir with | some d => str ("/") ++ d | none => []),
        by simp [List.append_assoc]⟩
    · exact ⟨str ("Failed to download template from ") ++ r.owner ++ str ("/") ++
          r.repo ++ str ("@"),
        (match r.subdir with | some d => str ("/") ++ d | none => []),
        by simp [List.append_assoc]⟩
    · intro d hd
      simp only [hd]
      exact ⟨str ("Failed to download template from ") ++ r.owner ++ str ("/") ++
          r.repo ++ str ("@") ++ commitishOf r ++ str ("/"), [],
        by simp [List.append_assoc]⟩

/-- C8 counterexample: for `owner/repo/sub` (subdirectory `sub`) with a
non-success status, the failure is the status filter error carrying the
request URL, and `sub` does not occur anywhere in it — the error does not
name the subdirectory, contrary to the claim. -/
theorem claim8_counterexample :
    parseGitHubSpec (str ("owner/repo/sub"))
        = some ⟨str ("owner"), str ("repo"), none, some (str ("sub"))⟩
    ∧ downloadFromRepoOutcome (str ("owner/repo/sub")) false true
        = .error (.response (str ("https://codeload.github.com/owner/repo/tar.gz/main")))
    ∧ includes (str ("https://codeload.github.com/owner/repo/tar.gz/main")) (str ("sub"))
        = false :=
  ⟨rfl, rfl, rfl⟩

/-- C8 witness: the parse-failure part applied to the one-segment input
`nosegments`. -/
theorem claim8_witness :
    downloadFromRepoOutcome (str ("nosegments")) true true
      = .error (.validation (str ("Invalid GitHub repo spec: ") ++ str ("nosegments"))) :=
  claim8_error_reporting.1 (str ("nosegments")) true true rfl

/-- C9: the catalog filters of `downloadExample` and `downloadTemplate`
accept an archive entry exactly when its full path contains
`examples-main/examples/<name>` (respectively
`examples-main/templates/<name>`) as a substring anywhere, with no boundary
check; so an entry under a sibling directory whose name merely extends the
catalog name also passes. -/
theorem claim9_catalog_filter :
    (∀ name p, downloadExampleFilter name p = true ↔
        ∃ a b, p = a ++ (str ("examples-main/examples/") ++ name) ++ b)
    ∧ (∀ name p, downloadTemplateFilter name p = true ↔
        ∃ a b, p = a ++ (str ("examples-main/templates/") ++ name) ++ b)
    ∧ (∀ name, downloadExampleFilter name
        (str ("examples-main/examples/") ++ name ++ str ("-extra/file.ts")) = true) := by
  refine ⟨fun name p => includes_iff p _, fun name p => includes_iff p _, ?_⟩
  intro name
  refine (includes_iff _ _).mpr ⟨[], str ("-extra/file.ts"), ?_⟩
  simp [List.append_assoc]

/-- C10: a shorthand input ending in `@` (with a non-empty body before it)
that parses successfully has `ref` equal to the empty string, not absent,
and the commit-ish used for the fetch path is therefore the empty string
rather than the default `main`; concretely, `owner/repo@` parses with
`ref = ""` and its fetch URL ends in `tar.gz/` with an empty commit-ish. -/
theorem claim10_empty_ref :
    (∀ s t r, parseGitHubSpec s = some r →
        stripSpecPrefixes (trim s) = t ++ ['@'] → t ≠ [] →
        (startsWith (t ++ ['@']) (str ("http://")) ||
          startsWith (t ++ ['@']) (str ("https://"))) = false →
        r.ref = some [] ∧ commitishOf r = [])
    ∧ parseGitHubSpec (str ("owner/repo@"))
        = some ⟨str ("owner"), str ("repo"), some [], none⟩
    ∧ commitishOf ⟨str ("owner"), str ("repo"), some [], none⟩ = []
    ∧ downloadFromRepoOutcome (str ("owner/repo@")) false true
        = .error (.response (str ("https://codeload.github.com/owner/repo/tar.gz/"))) := by
  refine ⟨?_, rfl, rfl, rfl⟩
  intro s t r h hstrip ht hurl
  rw [parseGitHubSpec, parseSpecBody] at h
  simp only [hstrip, hurl] at h
  rw [parseShorthand] at h
  simp only [lastIndexOfChar_append t (List.not_mem_nil '@')] at h
  rw [if_pos (List.length_pos.mpr ht)] at h
  have hdrop : (t ++ ['@']).drop (t.length + 1) = [] := by
    have hlen : (t ++ ['@'] : Str).length = t.length + 1 := by simp
    rw [← hlen, List.drop_length]
  rw [hdrop] at h
  obtain ⟨href, -, -, -⟩ := shorthandFrom_shape h
  refine ⟨href, ?_⟩
  rw [commitishOf, href]
  rfl

/-- C10 witness: the theorem applied to `owner/repo@`. -/
theorem claim10_witness :
    RepoRef.ref ⟨str ("owner"), str ("repo"), some [], none⟩ = some []
      ∧ commitishOf ⟨str ("owner"), str ("repo"), some [], none⟩ = [] :=
  claim10_empty_ref.1 (str ("owner/repo@")) (str ("owner/repo"))
    ⟨str ("owner"), str ("repo"), some [], none⟩ rfl rfl (by decide) rfl

end CEA
